import Mathlib

/-!
Shallow embedding of the TSP heuristic engines of this repository
(src/map.h, src/genetic.h, src/Tarefa1/annealing.h, src/Tarefa1/main.cpp)
and proofs about them.

Modelling conventions:
* C++ `double` values (distances, temperatures, probabilities) are modelled
  as `ℚ`; the `dist` field of a `Path`, which is initialised to
  `std::numeric_limits<double>::infinity()`, is modelled as `WithTop ℚ`
  with `⊤` standing for the infinity sentinel.
* The pseudo-random generator is abstracted as an oracle of drawn values:
  every call site that consumes randomness takes the drawn value as an
  explicit argument (`randint(0,k)` draws become `ℕ` arguments, and the
  Boolean outcome of the Metropolis test `rand01() < exp(-Δ/T)` becomes a
  `Bool` argument).  Theorems quantify over all oracle values, hence over
  all possible RNG behaviours.
* Fallible operations (out-of-bounds vector reads, `pop.front()` on an
  empty vector) are modelled in the `Option` monad; C++ exceptions
  (`throw std::runtime_error`) are modelled with `Except String`.
* The distance matrix is consumed as a precomputed flat `List ℚ`
  (row-major, stride `n`), exactly as the engines consume
  `Problem::distanceMatrix`; its construction (`buildDistanceMatrix`,
  floating-point `hypot`) is external setup outside the verified core.
-/

namespace TSP

/-- Embeds `struct Path` of src/map.h: a tour order plus a cached length
(`dist` defaults to floating-point infinity, modelled as `⊤`). -/
structure Path where
  order : List ℕ
  dist : WithTop ℚ := ⊤
deriving DecidableEq

instance : Inhabited Path := ⟨⟨[], ⊤⟩⟩

/-- Embeds the consecutive-edge accumulation loop of `routeLength`
(src/map.h): `for (i; i+1 < n; ++i) acc += distM[order[i]*n + order[i+1]]`,
with the flat-matrix read made fallible. -/
def sumConsec (n : ℕ) (distM : List ℚ) : List ℕ → Option ℚ
  | a :: b :: rest => do
      let d ← distM[a * n + b]?
      let s ← sumConsec n distM (b :: rest)
      pure (d + s)
  | _ => pure 0

/-- Embeds `routeLength` of src/map.h: cyclic tour length over a flat
distance matrix with stride `order.size()`.  The unconditional
`order.back()`/`order.front()` accesses are fallible (`none` on an empty
order), as are the matrix reads. -/
def routeLength (order : List ℕ) (distM : List ℚ) : Option ℚ := do
  let n := order.length
  let inner ← sumConsec n distM order
  let lastc ← order.getLast?
  let frontc ← order.head?
  let wrap ← distM[lastc * n + frontc]?
  pure (inner + wrap)

/-- The round-trip invariant of the spec: the cached `dist` field equals
the recomputed cyclic length of `order`.  Decidable, so concrete instances
can be settled by `decide`. -/
def distOk (m : List ℚ) (p : Path) : Prop :=
  (routeLength p.order m).map (fun q => (q : WithTop ℚ)) = some p.dist

instance (m : List ℚ) (p : Path) : Decidable (distOk m p) :=
  inferInstanceAs (Decidable (_ = _))

/-- Embeds `std::reverse(order.begin()+i, order.begin()+j+1)`: the
contiguous segment `[i, j]` (inclusive) of the list is reversed. -/
def reverseSegment (l : List ℕ) (i j : ℕ) : List ℕ :=
  l.take i ++ ((l.drop i).take (j + 1 - i)).reverse ++ l.drop (j + 1)

/-- Embeds `twoOptSwap` of src/Tarefa1/annealing.h.  `di`, `dj` are the two
index draws `rng.randint(0, size-1)` (the RNG contract keeps them below the
length); the function orders them, copies the path and reverses the
segment.  Note the copy keeps the cached `dist` of the input — the source
does not recompute it. -/
def twoOptSwap (path : Path) (di dj : ℕ) : Path :=
  if path.order.length < 2 then path
  else
    { order := reverseSegment path.order (min di dj) (max di dj),
      dist := path.dist }

/-- Embeds `routePathLength` of src/Tarefa1/annealing.h. -/
def routePathLength (path : Path) (distM : List ℚ) : Option ℚ :=
  routeLength path.order distM

/-- Embeds `struct AnnealingParams` of src/Tarefa1/annealing.h (the
`double` temperatures and coefficient as `ℚ`). -/
structure AnnealingParams where
  initialTemp : ℚ := 1000
  finalTemp : ℚ := 1 / 1000
  alpha : ℚ := 0
  actualTemp : ℚ := 1000
  neighborsPerTemp : ℕ := 10
  stallLimit : ℕ := 500
deriving DecidableEq

/-- Embeds `struct AnnealingState` of src/Tarefa1/annealing.h.  The
`problem` field is represented by the only part of `Problem` the engine
reads: its flat distance matrix. -/
structure AnnealingState where
  bestPath : Path
  currentPath : Path
  params : AnnealingParams
  problem : List ℚ
  bestDist : WithTop ℚ := ⊤
  iterations : ℕ := 0
  currentIterations : ℕ := 0
  stallCounter : ℕ := 0
deriving DecidableEq

/-- Oracle record for one iteration of the annealing neighbour loop: the
two index draws feeding `twoOptSwap` and the Boolean outcome of the
Metropolis test `rng.rand01() < exp(-delta/actualTemp)` (the real-valued
comparison is abstracted as its outcome; the draw is only consumed in the
rejection branch, where `delta ≥ 0`). -/
structure SADraw where
  i : ℕ := 0
  j : ℕ := 0
  accept : Bool := false
deriving DecidableEq

/-- Embeds one iteration of the `neighborsPerTemp` loop body of
`runAnnealing` (src/Tarefa1/annealing.h lines 48-77). -/
def saIter (m : List ℚ) (d : SADraw) (st : AnnealingState) :
    Option AnnealingState := do
  let candidate := twoOptSwap st.currentPath d.i d.j
  let current_dist ← routePathLength st.currentPath m
  let candidate_dist ← routePathLength candidate m
  let cur1 :=
    if candidate_dist < current_dist then candidate
    else if d.accept then candidate else st.currentPath
  let currLen ← routePathLength cur1 m
  let st1 :=
    if (currLen : WithTop ℚ) < st.bestDist then
      { st with currentPath := cur1, bestDist := (currLen : WithTop ℚ),
                bestPath := cur1, stallCounter := 0 }
    else
      { st with currentPath := cur1, stallCounter := st.stallCounter + 1 }
  pure { st1 with iterations := st1.iterations + 1,
                  currentIterations := st1.currentIterations + 1 }

/-- The `for (i = 0; i < neighborsPerTemp; ++i)` loop of `runAnnealing`:
`k` iterations remain, iteration number `idx` uses oracle `draws idx`. -/
def saBatch (m : List ℚ) (draws : ℕ → SADraw) :
    ℕ → ℕ → AnnealingState → Option AnnealingState
  | _, 0, st => pure st
  | idx, k + 1, st => do
      let st' ← saIter m (draws idx) st
      saBatch m draws (idx + 1) k st'

/-- The terminal test of `runAnnealing`: entry guard and return value use
the same condition. -/
def saTerminal (st : AnnealingState) : Prop :=
  st.params.actualTemp < st.params.finalTemp ∨
    st.params.stallLimit ≤ st.stallCounter

instance (st : AnnealingState) : Decidable (saTerminal st) :=
  inferInstanceAs (Decidable (_ ∨ _))

/-- Embeds `runAnnealing` of src/Tarefa1/annealing.h.  Returns the updated
state paired with the C++ `bool` result; `none` models undefined behaviour
of the out-of-bounds reads inside the batch (empty tour / short matrix). -/
def runAnnealing (st : AnnealingState) (draws : ℕ → SADraw) :
    Option (AnnealingState × Bool) :=
  if saTerminal st then pure (st, false)
  else do
    let st' ← saBatch st.problem draws 0 st.params.neighborsPerTemp st
    let cooled :=
      { st' with params :=
          { st'.params with actualTemp :=
              st'.params.actualTemp /
                (1 + st'.params.alpha * st'.params.actualTemp) } }
    pure (cooled, decide ¬ saTerminal cooled)

/-- Embeds `std::swap(l[i], l[j])` on a vector: exchange the elements at
positions `i` and `j`.  The call sites draw `i`, `j` below the length via
`randint`; an out-of-range position (undefined behaviour in C++) is
modelled as a no-op. -/
def listSwap {α : Type} (l : List α) (i j : ℕ) : List α :=
  match l[i]?, l[j]? with
  | some a, some b => (l.set i b).set j a
  | _, _ => l

/-- Embeds `struct GAParams` of src/genetic.h. -/
structure GAParams where
  populationSize : ℕ := 1000
  generations : ℕ := 5000
  mutationRate : ℚ := 2 / 100
  tournamentK : ℕ := 5
  elitism : ℕ := 5
  stallLimit : ℕ := 500
deriving DecidableEq

/-- The Fisher-Yates loop of `initPopulation` (src/genetic.h):
`for (i = n-1; i > 0; --i) swap(order[i], order[rng.randint(0, i)])`;
`draw i` is the value drawn for counter `i` (the RNG contract keeps it
`≤ i`). -/
def fyAux (draw : ℕ → ℕ) : ℕ → List ℕ → List ℕ
  | 0, order => order
  | i + 1, order => fyAux draw i (listSwap order (i + 1) (draw (i + 1)))

/-- Embeds `initPopulation` of src/genetic.h: every member's order starts
as `iota` = `[0, n)`, is shuffled by the Fisher-Yates loop, and its cached
dist is set to infinity.  `draws memberIdx` is the oracle for member
`memberIdx` of the `count`-element population. -/
def initPopulation (count n : ℕ) (draws : ℕ → ℕ → ℕ) : List Path :=
  (List.range count).map fun memberIdx =>
    { order := fyAux (draws memberIdx) (n - 1) (List.range n), dist := ⊤ }

/-- Embeds `tournamentSelect` of src/genetic.h: `draw 0` is the initial
index draw, `draw i` (for `1 ≤ i < k`) the draw of round `i`; keeps the
index of the smallest `dist` seen, ties keeping the earlier draw. -/
def tournamentSelect (pop : List Path) (draw : ℕ → ℕ) (k : ℕ) : ℕ :=
  (List.range' 1 (k - 1)).foldl
    (fun best i =>
      let idx := draw i
      if (pop.getD idx default).dist < (pop.getD best default).dist then idx
      else best)
    (draw 0)

/-- The `std::numeric_limits<uint16_t>::max()` sentinel the child tour is
pre-filled with in `orderCrossover`. -/
def uint16Max : ℕ := 65535

/-- The segment-copy loop of `orderCrossover` (src/genetic.h):
`for (i = a; i <= b; ++i) { child[i] = p1[i]; taken[p1[i]] = true; }`,
iterated here over the index list `[a, ..., b]`. -/
def oxCopy (p1 : List ℕ) : List ℕ → List ℕ → Finset ℕ → List ℕ × Finset ℕ
  | [], child, taken => (child, taken)
  | i :: is, child, taken =>
      oxCopy p1 is (child.set i (p1.getD i 0)) (insert (p1.getD i 0) taken)

/-- The fill loop of `orderCrossover` (src/genetic.h): scan parent-2's
genes from position `(b+1+i) % n`, skip genes already taken, write into
child position `pos`, advancing `pos` modulo `n`. -/
def oxFill (p2 : List ℕ) (n b : ℕ) (taken : Finset ℕ) :
    List ℕ → ℕ → List ℕ → List ℕ
  | [], _, child => child
  | i :: is, pos, child =>
      let gene := p2.getD ((b + 1 + i) % n) 0
      if gene ∈ taken then oxFill p2 n b taken is pos child
      else oxFill p2 n b taken is ((pos + 1) % n) (child.set pos gene)

/-- Embeds `orderCrossover` of src/genetic.h (the produced child order;
the child's recycled `dist` slot is dead — `evaluate` overwrites it before
any read).  `da`, `db` are the two cut-point draws `randint(0, n-1)`,
ordered to `a ≤ b` as in the source. -/
def orderCrossover (p1 p2 : List ℕ) (da db : ℕ) : List ℕ :=
  let n := p1.length
  let a := min da db
  let b := max da db
  let copied := oxCopy p1 (List.range' a (b + 1 - a)) (List.replicate n uint16Max) ∅
  oxFill p2 n b copied.2 (List.range n) ((b + 1) % n) copied.1

/-- Embeds `mutateSwap` of src/genetic.h.  For gene position `i`, the
oracle `draw i` is `none` when `rng.rand01() < mutationRate` fails and
`some j` (the partner draw `randint(0, n-1)`) when the mutation fires. -/
def mutateSwap (order : List ℕ) (draw : ℕ → Option ℕ) : List ℕ :=
  (List.range order.length).foldl
    (fun o i =>
      match draw i with
      | some j => listSwap o i j
      | none => o)
    order

/-- Embeds `evaluate` of src/genetic.h: recompute every member's cached
dist from its order. -/
def evaluate (pop : List Path) (distM : List ℚ) : Option (List Path) :=
  pop.mapM fun p => do
    let q ← routeLength p.order distM
    pure { p with dist := (q : WithTop ℚ) }

/-- Embeds the `std::sort` calls of src/genetic.h / src/Tarefa1/main.cpp:
sort the population ascending by cached dist (tie order unspecified in the
spec, so any correct sort refines it). -/
def sortByDist (pop : List Path) : List Path :=
  pop.mergeSort fun p q => decide (p.dist ≤ q.dist)

/-- Oracle bundle for one produced child (one slot of a GA generation):
tournament draws for both parents, the two crossover cut draws, and the
per-position mutation oracle. -/
structure GADraws where
  t1 : ℕ → ℕ → ℕ
  t2 : ℕ → ℕ → ℕ
  cut1 : ℕ → ℕ
  cut2 : ℕ → ℕ
  mutDraw : ℕ → ℕ → Option ℕ

/-- The epsilon of the strict-improvement test `pop.front().dist + 1e-9 <
best.dist`. -/
def gaEps : ℚ := 1 / 1000000000

/-- Builds the next population of one GA generation (src/genetic.h lines
100-110, identically src/Tarefa1/main.cpp `StepGA`): elitism copies the
first `elitism` members, every further slot receives a mutated crossover
child of two tournament-selected parents.  The child Path's dead `dist`
slot is written as `⊤` (the source leaves the recycled buffer value there;
it is overwritten by `evaluate` before any read). -/
def buildNext (pop : List Path) (elitism k : ℕ) (d : GADraws) : List Path :=
  (List.range pop.length).map fun i =>
    if i < elitism then pop.getD i default
    else
      let p1 := pop.getD (tournamentSelect pop (d.t1 i) k) default
      let p2 := pop.getD (tournamentSelect pop (d.t2 i) k) default
      let childOrder := orderCrossover p1.order p2.order (d.cut1 i) (d.cut2 i)
      { order := mutateSwap childOrder (d.mutDraw i), dist := ⊤ }

/-- The per-generation GA state shared by `runGA`'s loop and
`AlgorithmVisualization::StepGA`: the (sorted) population, the tracked
best tour, and the stall counter. -/
structure GAGenState where
  pop : List Path
  best : Path
  stall : ℕ
deriving DecidableEq

/-- One GA generation (loop body of `runGA`, src/genetic.h lines 100-121;
identically `AlgorithmVisualization::StepGA`, src/Tarefa1/main.cpp lines
205-237): build the next population, re-evaluate, sort, then update the
best tour when the front improves by more than `1e-9`, else bump the
stall counter. -/
def gaGeneration (m : List ℚ) (elitism k : ℕ) (d : GADraws)
    (st : GAGenState) : Option GAGenState := do
  let next := buildNext st.pop elitism k d
  let pop ← evaluate next m
  let sorted := sortByDist pop
  let front ← sorted.head?
  if front.dist + (gaEps : WithTop ℚ) < st.best.dist then
    pure { pop := sorted, best := front, stall := 0 }
  else
    pure { pop := sorted, best := st.best, stall := st.stall + 1 }

/-- The generation loop of `runGA` (src/genetic.h): runs up to `r` more
generations (`gen` numbers the current one for the oracle), breaking early
when a non-improving generation pushes the stall counter to the limit
(the `if (++stall >= cfg.stallLimit) break;` sits in the else-branch, so
`st'.stall ≠ 0` identifies that branch). -/
def gaLoop (m : List ℚ) (elitism k stallLimit : ℕ) (draws : ℕ → GADraws) :
    ℕ → ℕ → GAGenState → Option GAGenState
  | _, 0, st => pure st
  | gen, r + 1, st => do
      let st' ← gaGeneration m elitism k (draws gen) st
      if st'.stall ≠ 0 ∧ stallLimit ≤ st'.stall then pure st'
      else gaLoop m elitism k stallLimit draws (gen + 1) r st'

/-- Embeds `runGA` of src/genetic.h.  `m` is the distance matrix the
source builds from the problem at this point (construction external).
The outer `Except` carries the `throw std::runtime_error` of the
city-count guard; the inner `Option` the fallibility of the body. -/
def runGA (n : ℕ) (m : List ℚ) (cfg : GAParams)
    (initDraws : ℕ → ℕ → ℕ) (genDraws : ℕ → GADraws) :
    Except String (Option Path) :=
  if n < 3 then .error ("Need at least 3 cities.")
  else .ok (do
    let pop0 := initPopulation cfg.populationSize n initDraws
    let ev ← evaluate pop0 m
    let sorted := sortByDist ev
    let best ← sorted.head?
    let final ← gaLoop m cfg.elitism cfg.tournamentK cfg.stallLimit genDraws
      0 cfg.generations { pop := sorted, best := best, stall := 0 }
    pure final.best)

/-- The best-tour bookkeeping invariant of the SA engine: `bestDist` is
still the infinity sentinel, or it equals the recomputed cyclic length of
`bestPath.order` over matrix `m`. -/
def bestOkM (m : List ℚ) (st : AnnealingState) : Prop :=
  st.bestDist = ⊤ ∨
    (routeLength st.bestPath.order m).map (fun q => (q : WithTop ℚ)) =
      some st.bestDist

instance (m : List ℚ) (st : AnnealingState) : Decidable (bestOkM m st) :=
  inferInstanceAs (Decidable (_ ∨ _ = _))

/-- Modelled from the spec: the cyclic sum of consecutive edge distances
of `order` (including the wrap-around edge), the reference value
`routeLength` is claimed to compute. -/
def cyclicSum (order : List ℕ) (distM : List ℚ) : ℚ :=
  ((order.zip (order.rotate 1)).map
    (fun p => distM.getD (p.1 * order.length + p.2) 0)).sum

/-- The genes of parent-1's segment `[a, b]` (the ones marked `taken` by
the copy loop of `orderCrossover`). -/
def oxSegGenes (p1 : List ℕ) (a b : ℕ) : List ℕ :=
  (List.range' a (b + 1 - a)).map (fun i => p1.getD i 0)

/-- Modelled from the spec: the OX fill source — parent-2's genes scanned
in order starting immediately after cut position `b` (wrapping modulo
`n`), skipping the genes already placed from parent-1's segment
`[a, b]`. -/
def oxRemaining (p1 p2 : List ℕ) (a b n : ℕ) : List ℕ :=
  ((List.range n).map (fun i => p2.getD ((b + 1 + i) % n) 0)).filter
    (fun g => decide (g ∉ oxSegGenes p1 a b))

/-- Proof-support view of the OX fill loop once the skipped genes are
filtered away: write the genes `gs` into consecutive positions
`pos, pos+1, ...` wrapping modulo `n`. -/
def writeSeq (n : ℕ) : List ℕ → ℕ → List ℕ → List ℕ
  | [], _, child => child
  | g :: gs, pos, child => writeSeq n gs ((pos + 1) % n) (child.set pos g)

instance {ε α : Type} [DecidableEq ε] [DecidableEq α] :
    DecidableEq (Except ε α)
  | .error e, .error f => decidable_of_iff (e = f) (by simp)
  | .error _, .ok _ => isFalse (by simp)
  | .ok _, .error _ => isFalse (by simp)
  | .ok a, .ok b => decidable_of_iff (a = b) (by simp)

/-- Concrete distance matrix for four collinear cities at coordinates
0,1,2,3 (`d i j = abs (i - j)`), flat row-major. -/
def mLine4 : List ℚ := [0, 1, 2, 3, 1, 0, 1, 2, 2, 1, 0, 1, 3, 2, 1, 0]

/-- Concrete 2-city distance matrix. -/
def mPair : List ℚ := [0, 1, 1, 0]

/-- Concrete 3-city all-zero distance matrix. -/
def mZero9 : List ℚ := [0, 0, 0, 0, 0, 0, 0, 0, 0]

/-- A consistent 4-city tour over `mLine4`: its cyclic length is
1 + 1 + 1 + 3 = 6. -/
def pathLine : Path := { order := [0, 1, 2, 3], dist := ((6 : ℚ) : WithTop ℚ) }

/-- A one-city tour. -/
def pathSingle : Path := { order := [5], dist := ⊤ }

/-- A fixed SA oracle: every iteration draws segment `[0, 1]` and rejects
the Metropolis test. -/
def saDrawsW : ℕ → SADraw := fun _ => { i := 0, j := 1, accept := false }

/-- A concrete non-terminal annealing state over `mPair` with `α = 0`,
one neighbour per step and stall limit 1, whose best value 0 cannot be
improved, so one step stalls out. -/
def saStateW : AnnealingState :=
  { bestPath := { order := [0, 1], dist := ((2 : ℚ) : WithTop ℚ) },
    currentPath := { order := [0, 1], dist := ⊤ },
    params := { initialTemp := 1, finalTemp := 1 / 2, alpha := 0,
                actualTemp := 1, neighborsPerTemp := 1, stallLimit := 1 },
    problem := mPair, bestDist := ((2 : ℚ) : WithTop ℚ),
    iterations := 0, currentIterations := 0, stallCounter := 0 }

/-- The state `runAnnealing` produces from `saStateW` under `saDrawsW`. -/
def saStateW' : AnnealingState :=
  { saStateW with stallCounter := 1, iterations := 1, currentIterations := 1 }

/-- A terminal variant of `saStateW` (stall limit 0 is already reached). -/
def saStateT : AnnealingState :=
  { saStateW with params := { saStateW.params with stallLimit := 0 } }

/-- A trivial GA oracle bundle. -/
def gaDrawsW : GADraws :=
  { t1 := fun _ _ => 0, t2 := fun _ _ => 0, cut1 := fun _ => 0,
    cut2 := fun _ => 0, mutDraw := fun _ _ => none }

/-- A 3-city tour with consistent cached length 0 over `mZero9`. -/
def gaPathW : Path := { order := [0, 1, 2], dist := ((0 : ℚ) : WithTop ℚ) }

/-- A second 3-city tour with consistent cached length 0 over `mZero9`. -/
def gaPathW2 : Path := { order := [0, 2, 1], dist := ((0 : ℚ) : WithTop ℚ) }

/-- A concrete one-member GA generation state over `mZero9`. -/
def gaStateW : GAGenState :=
  { pop := [gaPathW], best := { order := [], dist := ⊤ }, stall := 0 }

/-- The state one `gaGeneration` produces from `gaStateW`. -/
def gaStateW' : GAGenState := { pop := [gaPathW], best := gaPathW, stall := 0 }

/-- A two-member GA generation state over `mZero9` (elitism 1 keeps the
first member, the second slot is bred from tournament draws 0). -/
def gaStateB : GAGenState :=
  { pop := [gaPathW, gaPathW2], best := { order := [], dist := ⊤ }, stall := 0 }

/-- The state one `gaGeneration` (elitism 1, tournament size 1) produces
from `gaStateB`: both parents are drawn at index 0, the OX child of
`[0,1,2]` with itself is `[0,1,2]` again. -/
def gaStateB' : GAGenState :=
  { pop := [gaPathW, gaPathW], best := gaPathW, stall := 0 }

/-- A minimal GA configuration (population 1, zero generations). -/
def gacfgW : GAParams :=
  { populationSize := 1, generations := 0, mutationRate := 0,
    tournamentK := 1, elitism := 0, stallLimit := 1 }

/-- A constant-zero shuffle oracle for `initPopulation`. -/
def initDrawsW : ℕ → ℕ → ℕ := fun _ _ => 0

/-- A constant GA generation oracle. -/
def genDrawsW : ℕ → GADraws := fun _ => gaDrawsW

open List in
lemma cons_set_perm {α : Type} (a : α) :
    ∀ (xs : List α) (k : ℕ) (b : α), xs[k]? = some b →
      b :: xs.set k a ~ a :: xs := by
  intro xs
  induction xs with
  | nil => intro k b h; simp at h
  | cons c cs ih =>
    intro k b h
    cases k with
    | zero =>
      simp at h
      subst h
      simpa using List.Perm.swap a c cs
    | succ m =>
      simp only [List.getElem?_cons_succ] at h
      simp only [List.set_cons_succ]
      calc b :: c :: cs.set m a
          ~ c :: b :: cs.set m a := List.Perm.swap c b _
        _ ~ c :: a :: cs := (ih m b h).cons c
        _ ~ a :: c :: cs := List.Perm.swap a c cs

open List in
lemma listSwap_perm {α : Type} (l : List α) (i j : ℕ) : listSwap l i j ~ l := by
  unfold listSwap
  cases hi : l[i]? with
  | none => simp
  | some a =>
    cases hj : l[j]? with
    | none => simp
    | some b =>
      simp only []
      have hjlen : j < l.length := (List.getElem?_eq_some_iff.mp hj).1
      have hj' : (l.set i b)[j]? = some b := by
        rcases eq_or_ne i j with rfl | hne
        · rw [List.getElem?_set_self (by simpa using hjlen)]
        · rw [List.getElem?_set_ne hne, hj]
      have h1 : b :: (l.set i b).set j a ~ a :: l.set i b :=
        cons_set_perm a (l.set i b) j b hj'
      have h2 : a :: l.set i b ~ b :: l := cons_set_perm b l i a hi
      exact (List.perm_cons b).mp (h1.trans h2)

open List in
lemma reverseSegment_perm (l : List ℕ) (i j : ℕ) (hij : i ≤ j) :
    reverseSegment l i j ~ l := by
  unfold reverseSegment
  have hsplit : l = l.take i ++ (l.drop i).take (j + 1 - i) ++ l.drop (j + 1) := by
    have h1 : (l.drop i).take (j + 1 - i) ++ (l.drop i).drop (j + 1 - i) = l.drop i :=
      List.take_append_drop _ _
    have h2 : (l.drop i).drop (j + 1 - i) = l.drop (j + 1) := by
      rw [List.drop_drop]
      congr 1
      omega
    calc l = l.take i ++ l.drop i := (List.take_append_drop i l).symm
      _ = l.take i ++ ((l.drop i).take (j + 1 - i) ++ (l.drop i).drop (j + 1 - i)) := by
          rw [h1]
      _ = l.take i ++ (l.drop i).take (j + 1 - i) ++ l.drop (j + 1) := by
          rw [h2, List.append_assoc]
  rw [List.append_assoc]
  refine (List.Perm.append_left _ (List.Perm.append_right _ (List.reverse_perm _))).trans ?_
  rw [← List.append_assoc, hsplit.symm]

open List in
lemma twoOptSwap_order_perm (p : Path) (di dj : ℕ) :
    (twoOptSwap p di dj).order ~ p.order := by
  unfold twoOptSwap
  split
  · exact List.Perm.refl _
  · exact reverseSegment_perm p.order (min di dj) (max di dj) (min_le_max)

open List in
lemma fyAux_perm (draw : ℕ → ℕ) : ∀ (i : ℕ) (order : List ℕ),
    fyAux draw i order ~ order := by
  intro i
  induction i with
  | zero => intro order; exact List.Perm.refl _
  | succ k ih =>
    intro order
    exact (ih _).trans (listSwap_perm order (k + 1) (draw (k + 1)))

open List in
lemma mutateSwap_perm (order : List ℕ) (draw : ℕ → Option ℕ) :
    mutateSwap order draw ~ order := by
  unfold mutateSwap
  generalize List.range order.length = is
  induction is generalizing order with
  | nil => exact List.Perm.refl _
  | cons i is ih =>
    simp only [List.foldl_cons]
    cases draw i with
    | none => exact ih order
    | some j =>
      simp only []
      exact (ih (listSwap order i j)).trans (listSwap_perm order i j)

lemma twoOptSwap_dist (p : Path) (di dj : ℕ) :
    (twoOptSwap p di dj).dist = p.dist := by
  unfold twoOptSwap
  split <;> rfl

lemma take_one_reverse {α : Type} (xs : List α) :
    (xs.take 1).reverse = xs.take 1 := by
  cases xs <;> simp

lemma take_takeOne_drop {α : Type} :
    ∀ (l : List α) (i : ℕ),
      l.take i ++ (l.drop i).take 1 ++ l.drop (i + 1) = l := by
  intro l
  induction l with
  | nil => intro i; simp
  | cons x xs ih =>
    intro i
    cases i with
    | zero => simp
    | succ k =>
      simp only [List.take_succ_cons, List.drop_succ_cons, List.cons_append,
        List.append_assoc]
      rw [← List.append_assoc]
      congr 1
      exact ih k

lemma reverseSegment_self (l : List ℕ) (i : ℕ) : reverseSegment l i i = l := by
  unfold reverseSegment
  have h1 : i + 1 - i = 1 := by omega
  rw [h1, take_one_reverse, take_takeOne_drop]

lemma twoOptSwap_self (p : Path) (i : ℕ) : twoOptSwap p i i = p := by
  unfold twoOptSwap
  split
  · rfl
  · simp only [min_self, max_self, reverseSegment_self]

lemma saIter_spec (m : List ℚ) (d : SADraw) (st st' : AnnealingState)
    (h : saIter m d st = some st') :
    st'.params = st.params ∧ st'.problem = st.problem ∧
      st'.currentPath.dist = st.currentPath.dist ∧
      (st'.bestPath.dist = st.bestPath.dist ∨
        st'.bestPath.dist = st.currentPath.dist) ∧
      st'.bestDist ≤ st.bestDist ∧ (bestOkM m st → bestOkM m st') := by
  unfold saIter at h
  simp only [routePathLength, Option.bind_eq_bind, Option.bind_eq_some,
    Option.pure_def, Option.some.injEq] at h
  obtain ⟨cd, hcd, ccd, hccd, cl, hcl, hst'⟩ := h
  set cur1 := if ccd < cd then twoOptSwap st.currentPath d.i d.j
    else if d.accept then twoOptSwap st.currentPath d.i d.j else st.currentPath
    with hcur1
  have hdist : cur1.dist = st.currentPath.dist := by
    rw [hcur1]
    split
    · exact twoOptSwap_dist _ _ _
    · split
      · exact twoOptSwap_dist _ _ _
      · rfl
  by_cases himp : (cl : WithTop ℚ) < st.bestDist
  · rw [if_pos himp] at hst'
    subst hst'
    refine ⟨rfl, rfl, hdist, Or.inr hdist, le_of_lt himp, fun _ => ?_⟩
    unfold bestOkM
    right
    show (routeLength cur1.order m).map (fun q => (q : WithTop ℚ)) =
      some ((cl : ℚ) : WithTop ℚ)
    rw [hcl]
    rfl
  · rw [if_neg himp] at hst'
    subst hst'
    exact ⟨rfl, rfl, hdist, Or.inl rfl, le_refl _, fun hb => hb⟩

lemma saBatch_spec (m : List ℚ) (draws : ℕ → SADraw) :
    ∀ (k idx : ℕ) (st st' : AnnealingState),
      saBatch m draws idx k st = some st' →
      st'.params = st.params ∧ st'.problem = st.problem ∧
        st'.currentPath.dist = st.currentPath.dist ∧
        (st'.bestPath.dist = st.bestPath.dist ∨
          st'.bestPath.dist = st.currentPath.dist) ∧
        st'.bestDist ≤ st.bestDist ∧ (bestOkM m st → bestOkM m st') := by
  intro k
  induction k with
  | zero =>
    intro idx st st' h
    simp only [saBatch, Option.pure_def, Option.some.injEq] at h
    subst h
    exact ⟨rfl, rfl, rfl, Or.inl rfl, le_refl _, fun hb => hb⟩
  | succ k ih =>
    intro idx st st' h
    simp only [saBatch, Option.bind_eq_bind, Option.bind_eq_some] at h
    obtain ⟨st1, h1, h2⟩ := h
    obtain ⟨p1, q1, c1, bp1, b1, o1⟩ := saIter_spec m (draws idx) st st1 h1
    obtain ⟨p2, q2, c2, bp2, b2, o2⟩ := ih (idx + 1) st1 st' h2
    refine ⟨p2.trans p1, q2.trans q1, c2.trans c1, ?_, b2.trans b1,
      fun hb => o2 (o1 hb)⟩
    rcases bp2 with hb2 | hb2
    · rcases bp1 with hb1 | hb1
      · exact Or.inl (hb2.trans hb1)
      · exact Or.inr (hb2.trans hb1)
    · exact Or.inr (hb2.trans c1)

lemma runAnnealing_terminal (st : AnnealingState) (draws : ℕ → SADraw)
    (h : saTerminal st) : runAnnealing st draws = some (st, false) := by
  unfold runAnnealing
  rw [if_pos h]
  rfl

lemma runAnnealing_nonterminal_spec (st : AnnealingState)
    (draws : ℕ → SADraw) (st' : AnnealingState) (b : Bool)
    (hterm : ¬ saTerminal st) (h : runAnnealing st draws = some (st', b)) :
    ∃ stB, saBatch st.problem draws 0 st.params.neighborsPerTemp st = some stB ∧
      st' = { stB with params :=
        { stB.params with actualTemp :=
            stB.params.actualTemp /
              (1 + stB.params.alpha * stB.params.actualTemp) } } ∧
      b = decide ¬ saTerminal st' := by
  unfold runAnnealing at h
  rw [if_neg hterm] at h
  simp only [Option.bind_eq_bind, Option.bind_eq_some, Option.pure_def,
    Option.some.injEq, Prod.mk.injEq] at h
  obtain ⟨stB, hB, hst', hb⟩ := h
  exact ⟨stB, hB, hst'.symm, by rw [← hst', hb]⟩

lemma runAnnealing_some_fields (st : AnnealingState) (draws : ℕ → SADraw)
    (st' : AnnealingState) (b : Bool)
    (h : runAnnealing st draws = some (st', b)) :
    st'.problem = st.problem ∧
      st'.currentPath.dist = st.currentPath.dist ∧
      (st'.bestPath.dist = st.bestPath.dist ∨
        st'.bestPath.dist = st.currentPath.dist) ∧
      st'.bestDist ≤ st.bestDist ∧
      st'.params.finalTemp = st.params.finalTemp ∧
      st'.params.alpha = st.params.alpha ∧
      st'.params.stallLimit = st.params.stallLimit ∧
      (bestOkM st.problem st → bestOkM st.problem st') := by
  by_cases hterm : saTerminal st
  · rw [runAnnealing_terminal st draws hterm] at h
    simp only [Option.some.injEq, Prod.mk.injEq] at h
    rw [← h.1]
    exact ⟨rfl, rfl, Or.inl rfl, le_refl _, rfl, rfl, rfl, fun hb => hb⟩
  · obtain ⟨stB, hB, hst', _⟩ :=
      runAnnealing_nonterminal_spec st draws st' b hterm h
    obtain ⟨pB, qB, cB, bpB, bB, oB⟩ :=
      saBatch_spec st.problem draws st.params.neighborsPerTemp 0 st stB hB
    subst hst'
    exact ⟨qB, cB, bpB, bB, by rw [pB], by rw [pB], by rw [pB],
      fun hb => oB hb⟩

lemma mod_arc_ne (n pos k : ℕ) (hpos : pos < n) (hk : 0 < k) (hkn : k < n) :
    (pos + k) % n ≠ pos := by
  intro h
  rcases lt_or_ge (pos + k) n with hlt | hge
  · rw [Nat.mod_eq_of_lt hlt] at h
    omega
  · have h2 : pos + k - n < n := by omega
    rw [Nat.mod_eq_sub_mod hge, Nat.mod_eq_of_lt h2] at h
    omega

lemma writeSeq_length (n : ℕ) :
    ∀ (gs : List ℕ) (pos : ℕ) (child : List ℕ),
      (writeSeq n gs pos child).length = child.length := by
  intro gs
  induction gs with
  | nil => intro pos child; rfl
  | cons g gs ih =>
    intro pos child
    simp only [writeSeq, ih, List.length_set]

lemma writeSeq_untouched (n : ℕ) :
    ∀ (gs : List ℕ) (pos : ℕ) (child : List ℕ) (q : ℕ),
      pos < n →
      (∀ t, t < gs.length → (pos + t) % n ≠ q) →
      (writeSeq n gs pos child).getD q 0 = child.getD q 0 := by
  intro gs
  induction gs with
  | nil => intro pos child q _ _; rfl
  | cons g gs ih =>
    intro pos child q hpos hq
    have hq0 : pos ≠ q := by
      have := hq 0 (by simp)
      rwa [Nat.add_zero, Nat.mod_eq_of_lt hpos] at this
    have hn : 0 < n := Nat.lt_of_le_of_lt (Nat.zero_le pos) hpos
    simp only [writeSeq]
    rw [ih ((pos + 1) % n) (child.set pos g) q (Nat.mod_lt _ hn) ?hshift]
    · simp only [List.getD_eq_getElem?_getD]
      rw [List.getElem?_set_ne hq0]
    case hshift =>
      intro t ht
      have := hq (t + 1) (by simp; omega)
      rwa [Nat.mod_add_mod, show pos + 1 + t = pos + (t + 1) by omega]

lemma writeSeq_getD (n : ℕ) :
    ∀ (gs : List ℕ) (pos : ℕ) (child : List ℕ) (t : ℕ),
      child.length = n → pos < n → gs.length ≤ n → t < gs.length →
      (writeSeq n gs pos child).getD ((pos + t) % n) 0 = gs.getD t 0 := by
  intro gs
  induction gs with
  | nil => intro pos child t _ _ _ ht; simp at ht
  | cons g gs ih =>
    intro pos child t hlen hpos hgs ht
    have hn : 0 < n := Nat.lt_of_le_of_lt (Nat.zero_le pos) hpos
    cases t with
    | zero =>
      simp only [writeSeq, Nat.add_zero, Nat.mod_eq_of_lt hpos]
      rw [writeSeq_untouched n gs ((pos + 1) % n) (child.set pos g) pos
        (Nat.mod_lt _ hn) ?houts]
      · simp only [List.getD_eq_getElem?_getD]
        rw [List.getElem?_set_self (by omega)]
        simp
      case houts =>
        intro t' ht'
        rw [Nat.mod_add_mod, show pos + 1 + t' = pos + (1 + t') by omega]
        exact mod_arc_ne n pos (1 + t') hpos (by omega)
          (by simp at hgs; omega)
    | succ t' =>
      simp only [writeSeq]
      rw [show (pos + (t' + 1)) % n = ((pos + 1) % n + t') % n by
        rw [Nat.mod_add_mod]; congr 1; omega]
      rw [ih ((pos + 1) % n) (child.set pos g) t' (by simpa using hlen)
        (Nat.mod_lt _ hn) (by simp at hgs; omega) (by simpa using ht)]
      rfl

lemma oxCopy_length (p1 : List ℕ) :
    ∀ (is : List ℕ) (child : List ℕ) (taken : Finset ℕ),
      (oxCopy p1 is child taken).1.length = child.length := by
  intro is
  induction is with
  | nil => intro child taken; rfl
  | cons i is ih =>
    intro child taken
    simp only [oxCopy, ih, List.length_set]

lemma oxCopy_taken (p1 : List ℕ) :
    ∀ (is : List ℕ) (child : List ℕ) (taken : Finset ℕ),
      (oxCopy p1 is child taken).2 =
        taken ∪ (is.map (fun i => p1.getD i 0)).toFinset := by
  intro is
  induction is with
  | nil => intro child taken; simp [oxCopy]
  | cons i is ih =>
    intro child taken
    simp only [oxCopy, ih, List.map_cons, List.toFinset_cons]
    ext g
    simp only [Finset.mem_union, Finset.mem_insert]
    tauto

lemma oxCopy_untouched (p1 : List ℕ) :
    ∀ (is : List ℕ) (child : List ℕ) (taken : Finset ℕ) (q : ℕ),
      q ∉ is → (oxCopy p1 is child taken).1.getD q 0 = child.getD q 0 := by
  intro is
  induction is with
  | nil => intro child taken q _; rfl
  | cons i is ih =>
    intro child taken q hq
    simp only [List.mem_cons, not_or] at hq
    simp only [oxCopy]
    rw [ih _ _ q hq.2]
    simp only [List.getD_eq_getElem?_getD]
    rw [List.getElem?_set_ne (Ne.symm hq.1)]

lemma oxCopy_getD_mem (p1 : List ℕ) :
    ∀ (is : List ℕ), is.Nodup →
      ∀ (child : List ℕ) (taken : Finset ℕ) (i : ℕ),
        i ∈ is → i < child.length →
        (oxCopy p1 is child taken).1.getD i 0 = p1.getD i 0 := by
  intro is
  induction is with
  | nil => intro _ child taken i hi; simp at hi
  | cons i0 is ih =>
    intro hnd child taken i hi hlen
    simp only [List.nodup_cons] at hnd
    simp only [List.mem_cons] at hi
    simp only [oxCopy]
    rcases hi with rfl | hi
    · rw [oxCopy_untouched p1 is _ _ i hnd.1]
      simp only [List.getD_eq_getElem?_getD]
      rw [List.getElem?_set_self hlen]
      simp
    · exact ih hnd.2 _ _ i hi (by simpa using hlen)

lemma oxFill_eq_writeSeq (p2 : List ℕ) (n b : ℕ) (taken : Finset ℕ) :
    ∀ (is : List ℕ) (pos : ℕ) (child : List ℕ),
      oxFill p2 n b taken is pos child =
        writeSeq n
          ((is.map (fun i => p2.getD ((b + 1 + i) % n) 0)).filter
            (fun g => decide (g ∉ taken)))
          pos child := by
  intro is
  induction is with
  | nil => intro pos child; rfl
  | cons i is ih =>
    intro pos child
    simp only [oxFill, List.map_cons, List.filter_cons]
    by_cases hg : p2.getD ((b + 1 + i) % n) 0 ∈ taken
    · rw [if_pos hg, ih]
      rw [if_neg (by simpa using hg)]
    · rw [if_neg hg, ih]
      rw [if_pos (by simpa using hg)]
      rfl

lemma scan_eq_rotate (p2 : List ℕ) (n b : ℕ) (hp2 : p2.length = n)
    (hn : 0 < n) :
    (List.range n).map (fun i => p2.getD ((b + 1 + i) % n) 0) =
      p2.rotate (b + 1) := by
  apply List.ext_getElem
  · simp [List.length_rotate, hp2]
  · intro i h1 h2
    have hin : (b + 1 + i) % n < p2.length := by
      rw [hp2]; exact Nat.mod_lt _ hn
    simp only [List.getElem_map, List.getElem_range, List.getD_eq_getElem?_getD,
      List.getElem?_eq_getElem hin, Option.getD_some]
    rw [List.getElem_rotate]
    congr 1
    rw [hp2]
    congr 1
    omega

lemma oxSegGenes_eq_take_drop (p1 : List ℕ) (a b : ℕ)
    (hle : a + (b + 1 - a) ≤ p1.length) :
    oxSegGenes p1 a b = (p1.drop a).take (b + 1 - a) := by
  apply List.ext_getElem
  · simp only [oxSegGenes, List.length_map, List.length_range',
      List.length_take, List.length_drop]
    omega
  · intro i h1 h2
    simp only [oxSegGenes, List.length_map, List.length_range'] at h1
    have hai : a + i < p1.length := by omega
    simp only [oxSegGenes, List.getElem_map, List.getElem_range', one_mul,
      List.getElem_take, List.getElem_drop, List.getD_eq_getElem?_getD,
      List.getElem?_eq_getElem hai, Option.getD_some]

lemma oxSegGenes_sublist (p1 : List ℕ) (a b : ℕ)
    (hle : a + (b + 1 - a) ≤ p1.length) :
    (oxSegGenes p1 a b).Sublist p1 := by
  rw [oxSegGenes_eq_take_drop p1 a b hle]
  exact ((p1.drop a).take_sublist _).trans (p1.drop_sublist a)

lemma oxSegGenes_length (p1 : List ℕ) (a b : ℕ) :
    (oxSegGenes p1 a b).length = b + 1 - a := by
  simp [oxSegGenes]

open List in
lemma range_filter_mem_perm (n : ℕ) (seg : List ℕ) (hnd : seg.Nodup)
    (hlt : ∀ g ∈ seg, g < n) :
    (List.range n).filter (fun g => decide (g ∈ seg)) ~ seg := by
  refine (List.perm_ext_iff_of_nodup ((List.nodup_range n).filter _) hnd).mpr ?_
  intro g
  simp only [List.mem_filter, List.mem_range, decide_eq_true_eq]
  exact ⟨fun h => h.2, fun h => ⟨hlt g h, h⟩⟩

lemma filter_length_split {α : Type} (p : α → Bool) (l : List α) :
    (l.filter p).length + (l.filter (fun x => !p x)).length = l.length := by
  have h := (List.filter_append_perm p l).length_eq
  simpa using h

open List in
lemma oxRemaining_perm (p1 p2 : List ℕ) (n a b : ℕ)
    (hp2 : p2 ~ List.range n) (hn : 0 < n) :
    oxRemaining p1 p2 a b n ~
      (List.range n).filter (fun g => decide (g ∉ oxSegGenes p1 a b)) := by
  have hp2len : p2.length = n := by simpa using hp2.length_eq
  unfold oxRemaining
  rw [scan_eq_rotate p2 n b hp2len hn]
  exact ((p2.rotate_perm (b + 1)).trans hp2).filter _

open List in
lemma oxRemaining_length (p1 p2 : List ℕ) (n a b : ℕ)
    (hp1 : p1 ~ List.range n) (hp2 : p2 ~ List.range n) (hn : 0 < n)
    (hab : a ≤ b) (hbn : b < n) :
    (oxRemaining p1 p2 a b n).length = n - (b + 1 - a) := by
  have hp1len : p1.length = n := by simpa using hp1.length_eq
  have hnd1 : p1.Nodup := hp1.nodup_iff.mpr (List.nodup_range n)
  have hsl : (oxSegGenes p1 a b).Sublist p1 :=
    oxSegGenes_sublist p1 a b (by omega)
  have hnd : (oxSegGenes p1 a b).Nodup := hsl.nodup hnd1
  have hlt : ∀ g ∈ oxSegGenes p1 a b, g < n := by
    intro g hg
    have : g ∈ p1 := hsl.subset hg
    simpa using hp1.mem_iff.mp this
  rw [(oxRemaining_perm p1 p2 n a b hp2 hn).length_eq]
  have hsplit := filter_length_split
    (fun g => decide (g ∈ oxSegGenes p1 a b)) (List.range n)
  have hmem := (range_filter_mem_perm n (oxSegGenes p1 a b) hnd hlt).length_eq
  have hrw : (List.range n).filter (fun g => decide (g ∉ oxSegGenes p1 a b)) =
      (List.range n).filter
        (fun g => !decide (g ∈ oxSegGenes p1 a b)) := by
    simp
  rw [hrw]
  have hseg := oxSegGenes_length p1 a b
  simp only [List.length_range] at hsplit
  omega

lemma getD_eq_getElem_of_lt {α : Type} {l : List α} {i : ℕ} {d : α}
    (h : i < l.length) : l.getD i d = l[i] := by
  simp [List.getD_eq_getElem?_getD, List.getElem?_eq_getElem h]

lemma fill_pos_outside (n a b t : ℕ) (hab : a ≤ b) (hbn : b < n)
    (ht : t < n - (b + 1 - a)) :
    (b + 1 + t) % n < a ∨ b < (b + 1 + t) % n := by
  rcases lt_or_ge (b + 1 + t) n with hlt | hge
  · right
    rw [Nat.mod_eq_of_lt hlt]
    omega
  · left
    have h2n : b + 1 + t - n < n := by omega
    rw [Nat.mod_eq_sub_mod hge, Nat.mod_eq_of_lt h2n]
    omega

lemma filter_toFinset_eq (scan seg : List ℕ) :
    scan.filter (fun g => decide (g ∉ seg.toFinset)) =
      scan.filter (fun g => decide (g ∉ seg)) := by
  apply List.filter_congr
  intro g _
  simp [List.mem_toFinset]

lemma orderCrossover_eq_writeSeq (p1 p2 : List ℕ) (n a b : ℕ)
    (hp1len : p1.length = n) (hab : a ≤ b) :
    orderCrossover p1 p2 a b =
      writeSeq n (oxRemaining p1 p2 a b n) ((b + 1) % n)
        (oxCopy p1 (List.range' a (b + 1 - a))
          (List.replicate n uint16Max) ∅).1 := by
  subst hp1len
  unfold orderCrossover oxRemaining
  rw [min_eq_left hab, max_eq_right hab, oxFill_eq_writeSeq, oxCopy_taken,
    Finset.empty_union]
  rw [show ((List.range' a (b + 1 - a)).map (fun i => p1.getD i 0)).toFinset =
    (oxSegGenes p1 a b).toFinset from rfl]
  rw [filter_toFinset_eq]

open List in
lemma oxSegGenes_facts (p1 : List ℕ) (n a b : ℕ)
    (hp1 : p1 ~ List.range n) (hab : a ≤ b) (hbn : b < n) :
    (oxSegGenes p1 a b).Nodup ∧ ∀ g ∈ oxSegGenes p1 a b, g < n := by
  have hp1len : p1.length = n := by simpa using hp1.length_eq
  have hnd1 : p1.Nodup := hp1.nodup_iff.mpr (List.nodup_range n)
  have hsl : (oxSegGenes p1 a b).Sublist p1 :=
    oxSegGenes_sublist p1 a b (by omega)
  refine ⟨hsl.nodup hnd1, fun g hg => ?_⟩
  have : g ∈ p1 := hsl.subset hg
  simpa using hp1.mem_iff.mp this

open List in
lemma orderCrossover_master (p1 p2 : List ℕ) (n a b : ℕ)
    (hp1 : p1 ~ List.range n) (hp2 : p2 ~ List.range n) (hn : 0 < n)
    (hab : a ≤ b) (hbn : b < n) :
    (orderCrossover p1 p2 a b).length = n ∧
      (∀ i, a ≤ i → i ≤ b →
        (orderCrossover p1 p2 a b).getD i 0 = p1.getD i 0) ∧
      (∀ t, t < n - (b + 1 - a) →
        (orderCrossover p1 p2 a b).getD ((b + 1 + t) % n) 0 =
          (oxRemaining p1 p2 a b n).getD t 0) := by
  have hp1len : p1.length = n := by simpa using hp1.length_eq
  have heq := orderCrossover_eq_writeSeq p1 p2 n a b hp1len hab
  have hpos : (b + 1) % n < n := Nat.mod_lt _ hn
  have hcslen :
      (oxCopy p1 (List.range' a (b + 1 - a))
        (List.replicate n uint16Max) ∅).1.length = n := by
    rw [oxCopy_length, List.length_replicate]
  have hrem := oxRemaining_length p1 p2 n a b hp1 hp2 hn hab hbn
  refine ⟨?_, ?_, ?_⟩
  · rw [heq, writeSeq_length, hcslen]
  · intro i hai hib
    rw [heq, writeSeq_untouched n _ _ _ i hpos ?hout]
    · have hin : i ∈ List.range' a (b + 1 - a) := by
        simp only [List.mem_range'_1]
        omega
      exact oxCopy_getD_mem p1 (List.range' a (b + 1 - a))
        (List.nodup_range' _ _) _ ∅ i hin
        (by rw [List.length_replicate]; omega)
    case hout =>
      intro t ht
      rw [hrem] at ht
      rw [Nat.mod_add_mod]
      rcases fill_pos_outside n a b t hab hbn ht with h | h <;> omega
  · intro t ht
    rw [heq, show (b + 1 + t) % n = ((b + 1) % n + t) % n from
      (Nat.mod_add_mod _ _ _).symm]
    exact writeSeq_getD n _ _ _ t hcslen hpos (by omega) (by omega)

open List in
lemma orderCrossover_perm (p1 p2 : List ℕ) (n a b : ℕ)
    (hp1 : p1 ~ List.range n) (hp2 : p2 ~ List.range n) (hn : 0 < n)
    (hab : a ≤ b) (hbn : b < n) :
    orderCrossover p1 p2 a b ~ List.range n := by
  obtain ⟨hlen, hseg, hfill⟩ :=
    orderCrossover_master p1 p2 n a b hp1 hp2 hn hab hbn
  have hrem := oxRemaining_length p1 p2 n a b hp1 hp2 hn hab hbn
  have hseglen := oxSegGenes_length p1 a b
  obtain ⟨hsnd, hslt⟩ := oxSegGenes_facts p1 n a b hp1 hab hbn
  have hp1len : p1.length = n := by simpa using hp1.length_eq
  have hrot : (orderCrossover p1 p2 a b).rotate (b + 1) =
      oxRemaining p1 p2 a b n ++ oxSegGenes p1 a b := by
    have hrotlen : ((orderCrossover p1 p2 a b).rotate (b + 1)).length = n := by
      rw [List.length_rotate, hlen]
    have happlen : (oxRemaining p1 p2 a b n ++ oxSegGenes p1 a b).length = n := by
      rw [List.length_append, hrem, hseglen]
      omega
    apply List.ext_getElem (by omega)
    intro t h1t h2t
    rw [hrotlen] at h1t
    have hgetrot : ((orderCrossover p1 p2 a b).rotate (b + 1)).getD t 0 =
        (orderCrossover p1 p2 a b).getD ((b + 1 + t) % n) 0 := by
      rw [getD_eq_getElem_of_lt (by omega), List.getElem_rotate,
        getD_eq_getElem_of_lt (by rw [hlen]; exact Nat.mod_lt _ hn)]
      congr 1
      rw [hlen]
      congr 1
      omega
    rw [← getD_eq_getElem_of_lt (by omega), ← getD_eq_getElem_of_lt (by omega),
      hgetrot]
    rcases lt_or_ge t (n - (b + 1 - a)) with hts | hts
    · rw [hfill t hts, List.getD_append _ _ _ _ (by omega)]
    · have hs : t - (n - (b + 1 - a)) < b + 1 - a := by omega
      have hidx2 : (b + 1 + t) % n = a + (t - (n - (b + 1 - a))) := by
        have h' : b + 1 + t = n + (a + (t - (n - (b + 1 - a)))) := by omega
        rw [h', Nat.add_mod_left, Nat.mod_eq_of_lt (by omega)]
      rw [hidx2, hseg (a + (t - (n - (b + 1 - a)))) (by omega) (by omega),
        List.getD_append_right _ _ _ _ (by omega), hrem]
      have hsegidx : t - (n - (b + 1 - a)) < (oxSegGenes p1 a b).length := by
        omega
      rw [getD_eq_getElem_of_lt hsegidx]
      simp only [oxSegGenes, List.getElem_map, List.getElem_range', one_mul]
  have h1 : orderCrossover p1 p2 a b ~
      oxRemaining p1 p2 a b n ++ oxSegGenes p1 a b := by
    rw [← hrot]
    exact ((orderCrossover p1 p2 a b).rotate_perm (b + 1)).symm
  have h2 := oxRemaining_perm p1 p2 n a b hp2 hn
  have h3 := range_filter_mem_perm n (oxSegGenes p1 a b) hsnd hslt
  have h4 := List.filter_append_perm
    (fun g => decide (g ∉ oxSegGenes p1 a b)) (List.range n)
  have h5 : (List.range n).filter
      (fun x => !decide (x ∉ oxSegGenes p1 a b)) =
      (List.range n).filter (fun g => decide (g ∈ oxSegGenes p1 a b)) := by
    simp
  rw [h5] at h4
  exact h1.trans ((h2.append h3.symm).trans h4)

lemma evaluate_fix (m : List ℚ) :
    ∀ (pop pop' : List Path), evaluate pop m = some pop' →
      ∀ p ∈ pop, distOk m p → p ∈ pop' := by
  intro pop
  induction pop with
  | nil => intro pop' h p hp; simp at hp
  | cons x xs ih =>
    intro pop' h p hp hok
    simp only [evaluate, List.mapM_cons, Option.bind_eq_bind,
      Option.bind_eq_some, Option.pure_def, Option.some.injEq] at h
    obtain ⟨y, hy, ys, hys, hpop'⟩ := h
    subst hpop'
    rcases List.mem_cons.mp hp with hp | hp
    · subst hp
      obtain ⟨q, hq, hyq⟩ := hy
      have hyp : y = p := by
        rw [← hyq]
        unfold distOk at hok
        rw [hq] at hok
        obtain ⟨ord, dst⟩ := p
        simp at hok ⊢
        exact hok
      rw [hyp]
      exact List.mem_cons_self _ _
    · right
      exact ih ys (by simpa [evaluate] using hys) p hp (hok)

lemma evaluate_length (m : List ℚ) :
    ∀ (pop pop' : List Path), evaluate pop m = some pop' →
      pop'.length = pop.length := by
  intro pop
  induction pop with
  | nil =>
    intro pop' h
    simp only [evaluate, List.mapM_nil, Option.pure_def, Option.some.injEq] at h
    simp [← h]
  | cons x xs ih =>
    intro pop' h
    simp only [evaluate, List.mapM_cons, Option.bind_eq_bind,
      Option.bind_eq_some, Option.pure_def, Option.some.injEq] at h
    obtain ⟨y, _, ys, hys, hpop'⟩ := h
    subst hpop'
    simp [ih ys (by simpa [evaluate] using hys)]

lemma gaEps_nonneg : (0 : WithTop ℚ) ≤ (gaEps : WithTop ℚ) := by
  have h0 : (0 : ℚ) ≤ gaEps := by norm_num [gaEps]
  exact_mod_cast h0

lemma gaGeneration_best_mono (m : List ℚ) (elitism k : ℕ) (d : GADraws)
    (st st' : GAGenState) (h : gaGeneration m elitism k d st = some st') :
    st'.best.dist ≤ st.best.dist := by
  unfold gaGeneration at h
  simp only [Option.bind_eq_bind, Option.bind_eq_some, Option.pure_def,
    Option.some.injEq] at h
  obtain ⟨pop, hpop, front, hfront, hif⟩ := h
  by_cases himp : front.dist + (gaEps : WithTop ℚ) < st.best.dist
  · rw [if_pos himp] at hif
    simp only [Option.some.injEq] at hif
    subst hif
    calc front.dist ≤ front.dist + (gaEps : WithTop ℚ) :=
          le_add_of_nonneg_right gaEps_nonneg
      _ ≤ st.best.dist := le_of_lt himp
  · rw [if_neg himp] at hif
    simp only [Option.some.injEq] at hif
    subst hif
    exact le_refl _

open List in
lemma gaGeneration_elitism (m : List ℚ) (elitism k : ℕ) (d : GADraws)
    (st st' : GAGenState) (hcons : ∀ p ∈ st.pop, distOk m p)
    (helit : elitism ≤ st.pop.length)
    (h : gaGeneration m elitism k d st = some st') :
    ∀ p ∈ st.pop.take elitism, p ∈ st'.pop := by
  unfold gaGeneration at h
  simp only [Option.bind_eq_bind, Option.bind_eq_some, Option.pure_def,
    Option.some.injEq] at h
  obtain ⟨pop, hpop, front, hfront, hif⟩ := h
  have hsorted : st'.pop = sortByDist pop := by
    by_cases himp : front.dist + (gaEps : WithTop ℚ) < st.best.dist
    · rw [if_pos himp] at hif
      simp only [Option.some.injEq] at hif
      rw [← hif]
    · rw [if_neg himp] at hif
      simp only [Option.some.injEq] at hif
      rw [← hif]
  intro p hp
  obtain ⟨i, hi, hgi⟩ := List.mem_iff_getElem.mp hp
  have hilen : i < st.pop.length := by
    have := hi
    simp only [List.length_take] at this
    omega
  have hielit : i < elitism := by
    have := hi
    simp only [List.length_take] at this
    omega
  rw [List.getElem_take] at hgi
  have hmemPop : p ∈ st.pop := hgi ▸ List.getElem_mem hilen
  have hbn : p ∈ buildNext st.pop elitism k d := by
    have hblen : (buildNext st.pop elitism k d).length = st.pop.length := by
      simp [buildNext]
    refine List.mem_iff_getElem.mpr ⟨i, by omega, ?_⟩
    unfold buildNext
    rw [List.getElem_map, List.getElem_range, if_pos hielit,
      getD_eq_getElem_of_lt hilen]
    exact hgi
  have hmem' : p ∈ pop := evaluate_fix m _ pop hpop p hbn (hcons p hmemPop)
  rw [hsorted]
  exact (List.mergeSort_perm pop _).mem_iff.mpr hmem'

lemma sumConsec_eq (n : ℕ) (distM : List ℚ) (hm : distM.length = n * n) :
    ∀ (l : List ℕ) (x : ℕ), (∀ v ∈ x :: l, v < n) →
      sumConsec n distM (x :: l) =
        some ((((x :: l).zip l).map
          (fun p => distM.getD (p.1 * n + p.2) 0)).sum) := by
  intro l
  induction l with
  | nil =>
    intro x _
    simp [sumConsec]
  | cons y rest ih =>
    intro x hb
    have hx : x < n := hb x (by simp)
    have hy : y < n := hb y (by simp)
    have hidx : x * n + y < distM.length := by
      rw [hm]
      calc x * n + y < x * n + n := by omega
        _ = (x + 1) * n := by ring
        _ ≤ n * n := Nat.mul_le_mul_right n (by omega)
    show (do
      let d ← distM[x * n + y]?
      let s ← sumConsec n distM (y :: rest)
      pure (d + s) : Option ℚ) = _
    rw [List.getElem?_eq_getElem hidx,
      ih y (fun v hv => hb v (List.mem_cons_of_mem x hv))]
    simp only [Option.bind_eq_bind, Option.some_bind, Option.pure_def,
      Option.some.injEq, List.zip_cons_cons, List.map_cons, List.sum_cons]
    rw [getD_eq_getElem_of_lt hidx]

lemma zip_wrap {γ : Type} [Inhabited γ] :
    ∀ (l : List γ) (x z : γ),
      (x :: l).zip (l ++ [z]) =
        (x :: l).zip l ++ [((x :: l).getLast (by simp), z)] := by
  intro l
  induction l with
  | nil => intro x z; simp
  | cons y rest ih =>
    intro x z
    show (x :: y :: rest).zip ((y :: rest) ++ [z]) = _
    rw [List.cons_append, List.zip_cons_cons, ih y z]
    simp [List.getLast_cons]

lemma routeLength_eq_cyclicSum (order : List ℕ) (distM : List ℚ)
    (hne : order ≠ []) (hb : ∀ v ∈ order, v < order.length)
    (hm : distM.length = order.length * order.length) :
    routeLength order distM = some (cyclicSum order distM) := by
  obtain ⟨x, l, rfl⟩ : ∃ x l, order = x :: l := by
    cases order with
    | nil => exact absurd rfl hne
    | cons x l => exact ⟨x, l, rfl⟩
  set n := (x :: l).length with hn
  have hlast : (x :: l).getLast? = some ((x :: l).getLast (by simp)) :=
    List.getLast?_eq_getLast _ _
  have hlastmem : (x :: l).getLast (by simp) ∈ x :: l :=
    List.getLast_mem _
  have hlastlt : (x :: l).getLast (by simp) < n := hb _ hlastmem
  have hxlt : x < n := hb x (by simp)
  have hwidx : (x :: l).getLast (by simp) * n + x < distM.length := by
    rw [hm]
    calc (x :: l).getLast (by simp) * n + x
        < (x :: l).getLast (by simp) * n + n := by omega
      _ = ((x :: l).getLast (by simp) + 1) * n := by ring
      _ ≤ n * n := Nat.mul_le_mul_right n (by omega)
  show (do
    let inner ← sumConsec n distM (x :: l)
    let lastc ← (x :: l).getLast?
    let frontc ← (x :: l).head?
    let wrap ← distM[lastc * n + frontc]?
    pure (inner + wrap) : Option ℚ) = some (cyclicSum (x :: l) distM)
  rw [sumConsec_eq n distM hm l x hb]
  rw [hlast]
  simp only [Option.bind_eq_bind, Option.some_bind, List.head?_cons,
    Option.pure_def, Option.some.injEq]
  rw [List.getElem?_eq_getElem hwidx]
  simp only [Option.some_bind, Option.some.injEq]
  unfold cyclicSum
  rw [show ((x :: l).rotate 1) = l ++ [x] by
    rw [List.rotate_cons_succ, List.rotate_zero]]
  rw [zip_wrap l x x]
  simp only [List.map_append, List.sum_append, List.map_cons, List.map_nil,
    List.sum_cons, List.sum_nil, ← hn]
  rw [getD_eq_getElem_of_lt hwidx]
  ring

/-- C8: two-opt edge cases — when the two drawn indices are equal the
returned Path equals the input (order and cached length unchanged), and a
tour with fewer than 2 cities is returned unchanged for any draws.  (The
embedding is purely functional, so `twoOptSwap` cannot mutate its input;
the C++ function copies the path before reversing.) -/
theorem claim_C8 (p : Path) (i di dj : ℕ) :
    twoOptSwap p i i = p ∧
      (p.order.length < 2 → twoOptSwap p di dj = p) := by
  refine ⟨twoOptSwap_self p i, fun hlen => ?_⟩
  unfold twoOptSwap
  rw [if_pos hlen]

theorem claim_C8_witness :
    twoOptSwap pathLine 2 2 = pathLine ∧
      twoOptSwap pathSingle 0 1 = pathSingle := by
  constructor
  · exact (claim_C8 pathLine 2 0 0).1
  · exact (claim_C8 pathSingle 1 0 1).2 (by decide)

/-- C4: SA terminal no-op and return value — on a terminal entry state
(`actualTemp < finalTemp` or `stallCounter ≥ stallLimit`) `runAnnealing`
returns `false` and the state unchanged; on a non-terminal entry it runs
the batch and returns `true` iff afterwards the temperature is still
`≥ finalTemp` and the stall counter is still below the limit. -/
theorem claim_C4 (st : AnnealingState) (draws : ℕ → SADraw) :
    (saTerminal st → runAnnealing st draws = some (st, false)) ∧
      (¬ saTerminal st → ∀ st' b, runAnnealing st draws = some (st', b) →
        (b = true ↔ st'.params.finalTemp ≤ st'.params.actualTemp ∧
          st'.stallCounter < st'.params.stallLimit)) := by
  refine ⟨fun hterm => runAnnealing_terminal st draws hterm,
    fun hterm st' b h => ?_⟩
  obtain ⟨stB, hB, hst', hb⟩ :=
    runAnnealing_nonterminal_spec st draws st' b hterm h
  rw [hb]
  simp only [decide_eq_true_eq]
  unfold saTerminal
  push_neg
  tauto

theorem claim_C4_witness :
    runAnnealing saStateT saDrawsW = some (saStateT, false) ∧
      (false = true ↔ saStateW'.params.finalTemp ≤ saStateW'.params.actualTemp ∧
        saStateW'.stallCounter < saStateW'.params.stallLimit) := by
  constructor
  · exact (claim_C4 saStateT saDrawsW).1 (by decide!)
  · exact (claim_C4 saStateW saDrawsW).2 (by decide!) saStateW' false (by decide!)

/-- C5: the tracked best is monotone non-increasing in both engines —
`bestDist` never increases across a `runAnnealing` call, and the tracked
best tour's length never increases across one GA generation (the
generation body shared by `runGA` and the concurrent `StepGA`). -/
theorem claim_C5 (st st' : AnnealingState) (b : Bool) (draws : ℕ → SADraw)
    (h : runAnnealing st draws = some (st', b))
    (m : List ℚ) (elitism k : ℕ) (d : GADraws) (g g' : GAGenState)
    (hg : gaGeneration m elitism k d g = some g') :
    st'.bestDist ≤ st.bestDist ∧ g'.best.dist ≤ g.best.dist :=
  ⟨(runAnnealing_some_fields st draws st' b h).2.2.2.1,
    gaGeneration_best_mono m elitism k d g g' hg⟩

theorem claim_C5_witness :
    saStateW'.bestDist ≤ saStateW.bestDist ∧
      gaStateW'.best.dist ≤ gaStateW.best.dist :=
  claim_C5 saStateW saStateW' false saDrawsW (by decide!)
    mZero9 1 5 gaDrawsW gaStateW gaStateW' (by decide!)

/-- C6: the cooling schedule — a non-terminal `runAnnealing` call sets the
temperature to `T / (1 + α·T)` exactly once, after the neighbour batch;
for `α ≥ 0` and `T > 0` this never increases the temperature; with
`α = 0` every call (terminal or not) leaves the temperature unchanged, so
such a call can only report termination through the stall counter. -/
theorem claim_C6 (st st' : AnnealingState) (b : Bool) (draws : ℕ → SADraw) :
    (¬ saTerminal st → runAnnealing st draws = some (st', b) →
      st'.params.actualTemp =
        st.params.actualTemp / (1 + st.params.alpha * st.params.actualTemp)) ∧
      (¬ saTerminal st → runAnnealing st draws = some (st', b) →
        0 ≤ st.params.alpha → 0 < st.params.actualTemp →
        st'.params.actualTemp ≤ st.params.actualTemp) ∧
      (st.params.alpha = 0 → runAnnealing st draws = some (st', b) →
        st'.params.actualTemp = st.params.actualTemp) ∧
      (st.params.alpha = 0 → ¬ saTerminal st → b = false →
        runAnnealing st draws = some (st', b) →
        st'.params.stallLimit ≤ st'.stallCounter) := by
  have key : ¬ saTerminal st → runAnnealing st draws = some (st', b) →
      st'.params.actualTemp =
        st.params.actualTemp /
          (1 + st.params.alpha * st.params.actualTemp) ∧
      st'.params.finalTemp = st.params.finalTemp ∧
      b = decide ¬ saTerminal st' := by
    intro hterm h
    obtain ⟨stB, hB, hst', hb⟩ :=
      runAnnealing_nonterminal_spec st draws st' b hterm h
    obtain ⟨pB, _, _, _, _, _⟩ :=
      saBatch_spec st.problem draws st.params.neighborsPerTemp 0 st stB hB
    subst hst'
    exact ⟨by simp [pB], by simp [pB], hb⟩
  have key3 : st.params.alpha = 0 → runAnnealing st draws = some (st', b) →
      st'.params.actualTemp = st.params.actualTemp := by
    intro halpha h
    by_cases hterm : saTerminal st
    · rw [runAnnealing_terminal st draws hterm] at h
      simp only [Option.some.injEq, Prod.mk.injEq] at h
      rw [← h.1]
    · rw [(key hterm h).1, halpha]
      simp
  refine ⟨fun hterm h => (key hterm h).1, fun hterm h ha hT => ?_, key3,
    fun halpha hterm hbf h => ?_⟩
  · rw [(key hterm h).1]
    have h1 : (1 : ℚ) ≤ 1 + st.params.alpha * st.params.actualTemp := by
      nlinarith
    exact div_le_self (le_of_lt hT) h1
  · obtain ⟨hTeq, hFeq, hb⟩ := key hterm h
    rw [hbf] at hb
    have hterm' : saTerminal st' := by
      by_contra hc
      have hd : decide (¬ saTerminal st') = true := decide_eq_true hc
      rw [← hb] at hd
      exact Bool.false_ne_true hd
    unfold saTerminal at hterm hterm'
    rcases hterm' with hlt | hstall
    · exfalso
      rw [key3 halpha h, hFeq] at hlt
      exact hterm (Or.inl hlt)
    · exact hstall

theorem claim_C6_witness :
    saStateW'.params.actualTemp =
        saStateW.params.actualTemp /
          (1 + saStateW.params.alpha * saStateW.params.actualTemp) ∧
      saStateW'.params.actualTemp ≤ saStateW.params.actualTemp ∧
      saStateW'.params.actualTemp = saStateW.params.actualTemp ∧
      saStateW'.params.stallLimit ≤ saStateW'.stallCounter := by
  obtain ⟨h1, h2, h3, h4⟩ := claim_C6 saStateW saStateW' false saDrawsW
  exact ⟨h1 (by decide!) (by decide!),
    h2 (by decide!) (by decide!) (by decide!) (by decide!),
    h3 (by decide!) (by decide!),
    h4 (by decide!) (by decide!) rfl (by decide!)⟩

/-- C7: the GA engine's minimum-size precondition — `runGA` raises the
InvalidProblem error (`throw std::runtime_error("Need at least 3
cities.")`) exactly when the problem has fewer than 3 cities, before any
engine state is built; with `n ≥ 3` no error is ever raised (the whole run
returns `.ok`), so the error can only happen at initialization, never
mid-run. -/
theorem claim_C7 (n : ℕ) (m : List ℚ) (cfg : GAParams)
    (initDraws : ℕ → ℕ → ℕ) (genDraws : ℕ → GADraws) :
    (n < 3 → runGA n m cfg initDraws genDraws =
      .error ("Need at least 3 cities.")) ∧
      (3 ≤ n → ∃ r, runGA n m cfg initDraws genDraws = .ok r) := by
  constructor
  · intro h
    unfold runGA
    rw [if_pos h]
  · intro h
    unfold runGA
    rw [if_neg (by omega)]
    exact ⟨_, rfl⟩

theorem claim_C7_witness :
    runGA 2 mZero9 gacfgW initDrawsW genDrawsW =
        .error ("Need at least 3 cities.") ∧
      runGA 3 mZero9 gacfgW initDrawsW genDrawsW =
        .ok (some { order := [1, 2, 0], dist := ((0 : ℚ) : WithTop ℚ) }) := by
  refine ⟨(claim_C7 2 mZero9 gacfgW initDrawsW genDrawsW).1 (by decide), ?_⟩
  exact (by decide! :
    runGA 3 mZero9 gacfgW initDrawsW genDrawsW =
      .ok (some { order := [1, 2, 0], dist := ((0 : ℚ) : WithTop ℚ) }))

/-- C10: `routeLength` requires a non-empty tour — for a non-empty order
whose values index an `n × n` matrix (`n` the order's length) it returns
the cyclic sum of consecutive edge distances including the wrap-around
edge (for a single city `[0]` with zero diagonal this is 0); for the empty
order the unconditional `order.back()`/`order.front()` access fails, so
the total embedding returns `none` rather than a number. -/
theorem claim_C10 (distM : List ℚ) (order : List ℕ) :
    routeLength [] distM = none ∧
      (order ≠ [] → (∀ v ∈ order, v < order.length) →
        distM.length = order.length * order.length →
        routeLength order distM = some (cyclicSum order distM)) ∧
      (distM[0]? = some 0 → routeLength [0] distM = some 0) := by
  refine ⟨rfl,
    fun h1 h2 h3 => routeLength_eq_cyclicSum order distM h1 h2 h3,
    fun h => ?_⟩
  simp [routeLength, sumConsec, h]

theorem claim_C10_witness :
    routeLength [] mPair = none ∧
      routeLength [0, 1] mPair = some (cyclicSum [0, 1] mPair) ∧
      routeLength [0] mPair = some 0 := by
  obtain ⟨h1, h2, h3⟩ := claim_C10 mPair [0, 1]
  exact ⟨h1, h2 (by decide) (by decide) (by decide), h3 (by decide!)⟩

/-- C1 counterexample: the tour `[0,1,2,3]` over the collinear matrix has
cached length 6; `twoOptSwap` with draws 1 and 2 reverses the middle
segment but carries the cached 6 along unchanged, while the reversed
order's recomputed cyclic length is 8 — so the returned Path violates the
claimed cached-length invariant. -/
theorem claim_C1_counterexample : ¬ distOk mLine4 (twoOptSwap pathLine 1 2) := by
  decide!

/-- C1 (amended): `twoOptSwap` copies the cached `dist` of its input
without recomputation; `runAnnealing` likewise never recomputes a Path's
`dist` field — it carries `currentPath.dist` through unchanged, and after
the call `bestPath.dist` is either the entry `bestPath.dist` (best not
updated) or the stale entry `currentPath.dist` copied along when the best
tour is replaced; the recomputed-length invariant instead holds for the
separate `bestDist` field: if on entry `bestDist` is the infinity
sentinel or equals the recomputed cyclic length of `bestPath.order`, the
same holds on exit. -/
theorem claim_C1 (p : Path) (di dj : ℕ) (st st' : AnnealingState) (b : Bool)
    (draws : ℕ → SADraw) (h : runAnnealing st draws = some (st', b)) :
    (twoOptSwap p di dj).dist = p.dist ∧
      st'.currentPath.dist = st.currentPath.dist ∧
      (st'.bestPath.dist = st.bestPath.dist ∨
        st'.bestPath.dist = st.currentPath.dist) ∧
      st'.problem = st.problem ∧
      (bestOkM st.problem st → bestOkM st.problem st') := by
  obtain ⟨hprob, hcur, hbp, _, _, _, _, hbest⟩ :=
    runAnnealing_some_fields st draws st' b h
  exact ⟨twoOptSwap_dist p di dj, hcur, hbp, hprob, hbest⟩

theorem claim_C1_witness :
    (twoOptSwap pathLine 1 2).dist = pathLine.dist ∧
      saStateW'.currentPath.dist = saStateW.currentPath.dist ∧
      (saStateW'.bestPath.dist = saStateW.bestPath.dist ∨
        saStateW'.bestPath.dist = saStateW.currentPath.dist) ∧
      saStateW'.problem = saStateW.problem ∧
      bestOkM saStateW.problem saStateW' := by
  obtain ⟨h1, h2, h3, h4, h5⟩ :=
    claim_C1 pathLine 1 2 saStateW saStateW' false saDrawsW (by decide!)
  exact ⟨h1, h2, h3, h4, h5 (by decide!)⟩

/-- C2: permutation preservation — every member `initPopulation` produces
has a permutation of `[0,n)` as its order, and `twoOptSwap`,
`orderCrossover` (for any cut draws below `n`) and `mutateSwap` map
permutations of `[0,n)` to permutations of `[0,n)`: no index is
duplicated or omitted. -/
theorem claim_C2 (count n : ℕ) (draws : ℕ → ℕ → ℕ) (p : Path)
    (hp : p ∈ initPopulation count n draws)
    (tp : Path) (di dj : ℕ) (htp : List.Perm tp.order (List.range n))
    (p1 p2 : List ℕ) (hp1 : List.Perm p1 (List.range n))
    (hp2 : List.Perm p2 (List.range n))
    (hn : 0 < n) (da db : ℕ) (hda : da < n) (hdb : db < n)
    (ord : List ℕ) (hord : List.Perm ord (List.range n))
    (mdraw : ℕ → Option ℕ) :
    List.Perm p.order (List.range n) ∧
      List.Perm (twoOptSwap tp di dj).order (List.range n) ∧
      List.Perm (orderCrossover p1 p2 da db) (List.range n) ∧
      List.Perm (mutateSwap ord mdraw) (List.range n) := by
  refine ⟨?_, (twoOptSwap_order_perm tp di dj).trans htp, ?_,
    (mutateSwap_perm ord mdraw).trans hord⟩
  · unfold initPopulation at hp
    obtain ⟨idx, _, rfl⟩ := List.mem_map.mp hp
    exact fyAux_perm (draws idx) (n - 1) (List.range n)
  · have hnorm : orderCrossover p1 p2 da db =
        orderCrossover p1 p2 (min da db) (max da db) := by
      unfold orderCrossover
      rw [min_eq_left min_le_max, max_eq_right min_le_max]
    rw [hnorm]
    exact orderCrossover_perm p1 p2 n (min da db) (max da db) hp1 hp2 hn
      min_le_max (max_lt hda hdb)

theorem claim_C2_witness :
    List.Perm ({ order := [1, 0], dist := ⊤ } : Path).order (List.range 2) ∧
      List.Perm (twoOptSwap { order := [0, 1], dist := ⊤ } 0 1).order
        (List.range 2) ∧
      List.Perm (orderCrossover [0, 1] [1, 0] 1 0) (List.range 2) ∧
      List.Perm (mutateSwap [1, 0] (fun _ => none)) (List.range 2) :=
  claim_C2 1 2 initDrawsW { order := [1, 0], dist := ⊤ } (by decide)
    { order := [0, 1], dist := ⊤ } 0 1 (by decide)
    [0, 1] [1, 0] (by decide) (by decide)
    (by decide) 1 0 (by decide) (by decide)
    [1, 0] (by decide) (fun _ => none)

/-- C3: order crossover follows the specified fill procedure — the child
has length `n`, carries parent-1's segment `[a, b]` verbatim at the same
positions, and the remaining positions, read starting immediately after
`b` and wrapping modulo `n`, hold exactly `oxRemaining`: parent-2's genes
scanned in order from just after `b` (wrapping), skipping the genes
already placed; `oxRemaining` has exactly `n - (b+1-a)` genes, one per
remaining position. -/
theorem claim_C3 (p1 p2 : List ℕ) (n a b : ℕ) (hn : 0 < n)
    (hp1 : List.Perm p1 (List.range n)) (hp2 : List.Perm p2 (List.range n))
    (hab : a ≤ b) (hbn : b < n) :
    (orderCrossover p1 p2 a b).length = n ∧
      (∀ i, a ≤ i → i ≤ b →
        (orderCrossover p1 p2 a b).getD i 0 = p1.getD i 0) ∧
      (∀ t, t < n - (b + 1 - a) →
        (orderCrossover p1 p2 a b).getD ((b + 1 + t) % n) 0 =
          (oxRemaining p1 p2 a b n).getD t 0) ∧
      (oxRemaining p1 p2 a b n).length = n - (b + 1 - a) := by
  obtain ⟨h1, h2, h3⟩ := orderCrossover_master p1 p2 n a b hp1 hp2 hn hab hbn
  exact ⟨h1, h2, h3, oxRemaining_length p1 p2 n a b hp1 hp2 hn hab hbn⟩

theorem claim_C3_witness :
    (orderCrossover [0, 1, 2] [2, 0, 1] 1 1).length = 3 ∧
      (orderCrossover [0, 1, 2] [2, 0, 1] 1 1).getD 1 0 =
        ([0, 1, 2] : List ℕ).getD 1 0 ∧
      (orderCrossover [0, 1, 2] [2, 0, 1] 1 1).getD ((1 + 1 + 0) % 3) 0 =
        (oxRemaining [0, 1, 2] [2, 0, 1] 1 1 3).getD 0 0 ∧
      (oxRemaining [0, 1, 2] [2, 0, 1] 1 1 3).length = 3 - (1 + 1 - 1) := by
  obtain ⟨h1, h2, h3, h4⟩ := claim_C3 [0, 1, 2] [2, 0, 1] 3 1 1 (by decide)
    (by decide) (by decide) (by decide) (by decide)
  exact ⟨h1, h2 1 (le_refl 1) (le_refl 1), h3 0 (by decide), h4⟩

/-- C9: elitism preservation — starting from a population sorted ascending
by cached length (with every cached length consistent, as `evaluate`
guarantees after the previous generation), the first `elitismCount`
members are no longer than everything behind them, and after one GA
generation each of them appears (identical order and identical length,
being the very same Path value) in the new population. -/
theorem claim_C9 (m : List ℚ) (elitism k : ℕ) (d : GADraws)
    (st st' : GAGenState)
    (hsorted : List.Sorted (fun p q : Path => p.dist ≤ q.dist) st.pop)
    (hcons : ∀ p ∈ st.pop, distOk m p)
    (helit : elitism ≤ st.pop.length)
    (h : gaGeneration m elitism k d st = some st') :
    (∀ p ∈ st.pop.take elitism, ∀ q ∈ st.pop.drop elitism, p.dist ≤ q.dist) ∧
      ∀ p ∈ st.pop.take elitism, p ∈ st'.pop :=
  ⟨fun _ hp _ hq => hsorted.rel_of_mem_take_of_mem_drop hp hq,
    gaGeneration_elitism m elitism k d st st' hcons helit h⟩

theorem claim_C9_witness :
    gaPathW.dist ≤ gaPathW2.dist ∧ gaPathW ∈ gaStateB'.pop := by
  obtain ⟨hA, hB⟩ := claim_C9 mZero9 1 1 gaDrawsW gaStateB gaStateB'
    (by decide!) (by decide!) (by decide!) (by decide!)
  exact ⟨hA gaPathW (by decide!) gaPathW2 (by decide!),
    hB gaPathW (by decide!)⟩

end TSP
